import Mathlib

/-!
Verification of `penne/evaluate.py` (threshold calibration and evaluation
orchestration for a pitch-estimation model).

The threshold-calibration loop in `from_stems` (lines 168-194) manipulates
the Python floats `left`, `right`, which start at `0`, `1` and are only ever
combined by `(left + right) / 2`.  Every value reached is therefore a dyadic
rational `a / 2^k` with `k ≤ 8` and the interval width is exactly `2⁻ᵏ`, so
all float arithmetic in the loop is exact and comparisons against the
literal `0.005` decide identically to exact rational arithmetic (no width
`2⁻ᵏ` lies between `1/200` and the double nearest to `0.005`).  The loop is
hence embedded faithfully over `ℚ`.

The per-threshold F1 score produced by `evaluate_at_threshold` on the fixed
hyperparameter stems is deterministic in the threshold, so it is modelled as
an oracle `f : ℚ → ℚ`; the memo dictionary `hparam_results` is modelled as
an insertion-ordered association list (Python dicts iterate in insertion
order, which `max` relies on for tie-breaking).
-/

namespace Penne

/-- State of the calibration loop of `from_stems` (evaluate.py lines
168-188): the interval bounds `left`, `right`, the memo dictionary
`hparam_results` as an insertion-ordered association list from threshold to
its f1 score, and the list of thresholds actually passed to
`evaluate_at_threshold`, in call order (for counting evaluations). -/
structure CalibState where
  left : ℚ
  right : ℚ
  table : List (ℚ × ℚ)
  evals : List ℚ
deriving DecidableEq

/-- Python dict lookup `hparam_results[t]` on the association-list model. -/
def tlookup (t : ℚ) : List (ℚ × ℚ) → Option ℚ
  | [] => none
  | (a, v) :: rest => if a = t then some v else tlookup t rest

/-- The f1 value the loop body obtains for threshold `t`: the memoized entry
when `t in hparam_results` (lines 172-173, 178-179), otherwise the freshly
evaluated score `f t` (lines 175-177, 181-183). -/
def memoF1 (f : ℚ → ℚ) (t : ℚ) (s : CalibState) : ℚ :=
  match tlookup t s.table with
  | some v => v
  | none => f t

/-- The state change of the same loop body fragment: when `t` misses the
memo dictionary, `evaluate_at_threshold` is invoked (recorded in `evals`)
and its score stored under `t`; otherwise nothing changes. -/
def memoInsert (f : ℚ → ℚ) (t : ℚ) (s : CalibState) : CalibState :=
  match tlookup t s.table with
  | some _ => s
  | none => { s with table := s.table ++ [(t, f t)], evals := s.evals ++ [t] }

/-- One iteration of the `while right-left > 0.005` body (lines 172-188):
score (or reuse) `left`, then `right`, compute `center = (left+right)/2`,
and move `left` up to `center` when `right_f1 > left_f1`, else move `right`
down to `center`. -/
def step (f : ℚ → ℚ) (s : CalibState) : CalibState :=
  let lf := memoF1 f s.left s
  let s1 := memoInsert f s.left s
  let rf := memoF1 f s.right s1
  let s2 := memoInsert f s.right s1
  let center := (s.left + s.right) / 2
  if rf > lf then { s2 with left := center } else { s2 with right := center }

/-- Initial loop state: `left = 0`, `right = 1`, empty memo dictionary
(lines 168-170). -/
def init : CalibState := ⟨0, 1, [], []⟩

/-- Fuel-indexed unfolding of `while right-left > 0.005` (line 171); the
fuel is shown elsewhere to be irrelevant from `8` on, so this models the
unbounded loop. -/
def calibLoop (f : ℚ → ℚ) : ℕ → CalibState → CalibState
  | 0, s => s
  | n + 1, s => if s.right - s.left > 0.005 then calibLoop f n (step f s) else s

/-- The state after `k` loop iterations from the initial state. -/
def calibIter (f : ℚ → ℚ) (k : ℕ) : CalibState := (step f)^[k] init

/-- The calibration loop run to completion (fuel 9 suffices: the loop
guard fails after exactly 8 iterations, independently of `f`). -/
def calibrate (f : ℚ → ℚ) : CalibState := calibLoop f 9 init

/-- The key function `lambda x: hparam_results[x]['f1']` of line 194 (for
keys of the dictionary the lookup never misses, so the default is inert). -/
def keyScore (tbl : List (ℚ × ℚ)) (k : ℚ) : ℚ := (tlookup k tbl).getD 0

/-- `best_thresh = max(hparam_results, key=lambda x: hparam_results[x]['f1'])`
(line 194).  Python `max` scans keys in insertion order and replaces the
current best only on a strictly larger key value, so the first maximum wins. -/
def bestThresh (tbl : List (ℚ × ℚ)) : Option ℚ :=
  match tbl.map Prod.fst with
  | [] => none
  | k :: ks => some (ks.foldl
      (fun acc k => if keyScore tbl k > keyScore tbl acc then k else acc) k)

/-- The memo table records exactly the oracle's scores. -/
def Consistent (f : ℚ → ℚ) (tbl : List (ℚ × ℚ)) : Prop :=
  ∀ p ∈ tbl, p.2 = f p.1

/-! ### Basic lemmas about the memo dictionary -/

theorem tlookup_eq_some_mem {t v : ℚ} :
    ∀ {tbl : List (ℚ × ℚ)}, tlookup t tbl = some v → (t, v) ∈ tbl := by
  intro tbl
  induction tbl with
  | nil => intro h; simp [tlookup] at h
  | cons p rest ih =>
      intro h
      obtain ⟨a, w⟩ := p
      by_cases ha : a = t
      · subst ha
        simp [tlookup] at h
        simp [h]
      · simp [tlookup, ha] at h
        exact List.mem_cons_of_mem _ (ih h)

theorem tlookup_eq_none_iff {t : ℚ} :
    ∀ {tbl : List (ℚ × ℚ)}, tlookup t tbl = none ↔ t ∉ tbl.map Prod.fst := by
  intro tbl
  induction tbl with
  | nil => simp [tlookup]
  | cons p rest ih =>
      obtain ⟨a, w⟩ := p
      by_cases ha : a = t
      · subst ha
        simp [tlookup]
      · simp [tlookup, ha, ih, Ne.symm ha]

theorem mem_keys_tlookup {t : ℚ} {tbl : List (ℚ × ℚ)}
    (h : t ∈ tbl.map Prod.fst) : ∃ v, tlookup t tbl = some v := by
  cases hv : tlookup t tbl with
  | none => exact absurd (tlookup_eq_none_iff.mp hv) (by simpa using h)
  | some v => exact ⟨v, rfl⟩

theorem tlookup_consistent {f : ℚ → ℚ} {t v : ℚ} {tbl : List (ℚ × ℚ)}
    (hc : Consistent f tbl) (h : tlookup t tbl = some v) : v = f t :=
  hc _ (tlookup_eq_some_mem h)

/-! ### Lemmas about one memoized evaluation -/

theorem memoInsert_left (f : ℚ → ℚ) (t : ℚ) (s : CalibState) :
    (memoInsert f t s).left = s.left := by
  unfold memoInsert
  cases tlookup t s.table <;> rfl

theorem memoInsert_right (f : ℚ → ℚ) (t : ℚ) (s : CalibState) :
    (memoInsert f t s).right = s.right := by
  unfold memoInsert
  cases tlookup t s.table <;> rfl

theorem memoF1_eq {f : ℚ → ℚ} {s : CalibState} (hc : Consistent f s.table)
    (t : ℚ) : memoF1 f t s = f t := by
  unfold memoF1
  cases hv : tlookup t s.table with
  | none => rfl
  | some v => exact tlookup_consistent hc hv

theorem memoInsert_table_mono {f : ℚ → ℚ} {t : ℚ} {s : CalibState}
    {p : ℚ × ℚ} (hp : p ∈ s.table) : p ∈ (memoInsert f t s).table := by
  unfold memoInsert
  cases tlookup t s.table with
  | none => exact List.mem_append_left _ hp
  | some v => exact hp

theorem memoInsert_self_mem (f : ℚ → ℚ) (t : ℚ) (s : CalibState) :
    t ∈ (memoInsert f t s).table.map Prod.fst := by
  unfold memoInsert
  cases hv : tlookup t s.table with
  | none => simp
  | some v =>
      simpa using List.mem_map_of_mem Prod.fst (tlookup_eq_some_mem hv)

/-- The full loop invariant: memo values match the oracle, the memo keys are
exactly the thresholds scored by `evaluate_at_threshold` in call order, and
no threshold was ever scored twice. -/
def Inv (f : ℚ → ℚ) (s : CalibState) : Prop :=
  Consistent f s.table ∧ s.table.map Prod.fst = s.evals ∧ s.evals.Nodup

theorem inv_init (f : ℚ → ℚ) : Inv f init := by
  refine ⟨?_, rfl, List.nodup_nil⟩
  intro p hp
  simp [init] at hp

theorem inv_memoInsert {f : ℚ → ℚ} {s : CalibState} (h : Inv f s) (t : ℚ) :
    Inv f (memoInsert f t s) := by
  obtain ⟨hc, hk, hn⟩ := h
  unfold memoInsert
  cases hv : tlookup t s.table with
  | some v => exact ⟨hc, hk, hn⟩
  | none =>
      have ht : t ∉ s.evals := hk ▸ tlookup_eq_none_iff.mp hv
      refine ⟨?_, ?_, ?_⟩
      · intro p hp
        rcases List.mem_append.mp hp with h1 | h2
        · exact hc p h1
        · simp at h2; simp [h2]
      · simp [hk]
      · simpa [List.nodup_append] using ⟨hn, ht⟩

theorem consistent_memoInsert {f : ℚ → ℚ} {s : CalibState}
    (hc : Consistent f s.table) (t : ℚ) :
    Consistent f (memoInsert f t s).table := by
  unfold memoInsert
  cases tlookup t s.table with
  | some v => exact hc
  | none =>
      intro p hp
      rcases List.mem_append.mp hp with h1 | h2
      · exact hc p h1
      · simp at h2; simp [h2]

/-! ### Lemmas about one loop iteration -/

theorem step_def (f : ℚ → ℚ) (s : CalibState) :
    step f s =
      if memoF1 f s.right (memoInsert f s.left s) > memoF1 f s.left s
      then { memoInsert f s.right (memoInsert f s.left s) with
               left := (s.left + s.right) / 2 }
      else { memoInsert f s.right (memoInsert f s.left s) with
               right := (s.left + s.right) / 2 } := rfl

theorem step_cases (f : ℚ → ℚ) (s : CalibState) :
    ((step f s).left = s.left ∧ (step f s).right = (s.left + s.right) / 2) ∨
    ((step f s).left = (s.left + s.right) / 2 ∧ (step f s).right = s.right) := by
  rw [step_def]
  split
  · right
    exact ⟨rfl, by simp [memoInsert_right]⟩
  · left
    exact ⟨by simp [memoInsert_left], rfl⟩

theorem step_width (f : ℚ → ℚ) (s : CalibState) :
    (step f s).right - (step f s).left = (s.right - s.left) / 2 := by
  rcases step_cases f s with ⟨h1, h2⟩ | ⟨h1, h2⟩ <;> rw [h1, h2] <;> ring

theorem step_table (f : ℚ → ℚ) (s : CalibState) :
    (step f s).table = (memoInsert f s.right (memoInsert f s.left s)).table := by
  rw [step_def]; split <;> rfl

theorem step_evals (f : ℚ → ℚ) (s : CalibState) :
    (step f s).evals = (memoInsert f s.right (memoInsert f s.left s)).evals := by
  rw [step_def]; split <;> rfl

theorem step_char {f : ℚ → ℚ} {s : CalibState} (hc : Consistent f s.table) :
    (f s.right > f s.left →
      (step f s).left = (s.left + s.right) / 2 ∧ (step f s).right = s.right) ∧
    (¬ f s.right > f s.left →
      (step f s).left = s.left ∧ (step f s).right = (s.left + s.right) / 2) := by
  have hl : memoF1 f s.left s = f s.left := memoF1_eq hc s.left
  have hr : memoF1 f s.right (memoInsert f s.left s) = f s.right :=
    memoF1_eq (consistent_memoInsert hc s.left) s.right
  rw [step_def, hl, hr]
  constructor
  · intro h
    rw [if_pos h]
    exact ⟨rfl, by simp [memoInsert_right]⟩
  · intro h
    rw [if_neg h]
    exact ⟨by simp [memoInsert_left], rfl⟩

theorem inv_step {f : ℚ → ℚ} {s : CalibState} (h : Inv f s) :
    Inv f (step f s) := by
  have h2 := inv_memoInsert (inv_memoInsert h s.left) s.right
  obtain ⟨hc, hk, hn⟩ := h2
  exact ⟨by rw [step_table]; exact hc,
         by rw [step_table, step_evals]; exact hk,
         by rw [step_evals]; exact hn⟩

theorem step_table_mono {f : ℚ → ℚ} {s : CalibState} {p : ℚ × ℚ}
    (hp : p ∈ s.table) : p ∈ (step f s).table := by
  rw [step_table]
  exact memoInsert_table_mono (memoInsert_table_mono hp)

theorem step_left_key_mem (f : ℚ → ℚ) (s : CalibState) :
    s.left ∈ (step f s).table.map Prod.fst := by
  rw [step_table]
  rcases mem_keys_tlookup (memoInsert_self_mem f s.left s) with ⟨v, hv⟩
  exact List.mem_map_of_mem Prod.fst
    (memoInsert_table_mono (tlookup_eq_some_mem hv))

/-! ### Lemmas about the iterated loop state -/

theorem inv_calibIter (f : ℚ → ℚ) : ∀ k, Inv f (calibIter f k) := by
  intro k
  induction k with
  | zero => exact inv_init f
  | succ k ih =>
      have : calibIter f (k + 1) = step f (calibIter f k) :=
        Function.iterate_succ_apply' (step f) k init
      rw [this]
      exact inv_step ih

theorem width_calibIter (f : ℚ → ℚ) :
    ∀ k, (calibIter f k).right - (calibIter f k).left = (1 / 2 : ℚ) ^ k := by
  intro k
  induction k with
  | zero => simp [calibIter, init]
  | succ k ih =>
      have h : calibIter f (k + 1) = step f (calibIter f k) :=
        Function.iterate_succ_apply' (step f) k init
      rw [h, step_width, ih]
      ring

theorem calibIter_succ (f : ℚ → ℚ) (k : ℕ) :
    calibIter f (k + 1) = step f (calibIter f k) :=
  Function.iterate_succ_apply' (step f) k init

/-! ### The loop guard and termination -/

theorem guard_true_of_le_seven {k : ℕ} (hk : k ≤ 7) :
    ((1 / 2 : ℚ) ^ k > 0.005) := by
  interval_cases k <;> norm_num

theorem guard_false_at_eight : ¬ ((1 / 2 : ℚ) ^ 8 > 0.005) := by norm_num

theorem calibLoop_of_not_gt {f : ℚ → ℚ} {s : CalibState}
    (h : ¬ s.right - s.left > 0.005) : ∀ n, calibLoop f n s = s := by
  intro n
  cases n with
  | zero => rfl
  | succ n => simp [calibLoop, h]

theorem calibLoop_of_gt {f : ℚ → ℚ} {s : CalibState} {n : ℕ}
    (h : s.right - s.left > 0.005) :
    calibLoop f (n + 1) s = calibLoop f n (step f s) := by
  simp [calibLoop, h]

theorem calibLoop_from_iter (f : ℚ → ℚ) :
    ∀ (j k : ℕ), k + j = 8 → ∀ n, j ≤ n →
      calibLoop f n (calibIter f k) = calibIter f 8 := by
  intro j
  induction j with
  | zero =>
      intro k hk n _
      have hk8 : k = 8 := by omega
      subst hk8
      exact calibLoop_of_not_gt (by rw [width_calibIter]; exact guard_false_at_eight) n
  | succ j ih =>
      intro k hk n hn
      obtain ⟨m, rfl⟩ : ∃ m, n = m + 1 := ⟨n - 1, by omega⟩
      have hg : (calibIter f k).right - (calibIter f k).left > 0.005 := by
        rw [width_calibIter]
        exact guard_true_of_le_seven (by omega)
      rw [calibLoop_of_gt hg, ← calibIter_succ]
      exact ih (k + 1) (by omega) m (by omega)

theorem calibLoop_eq_iter_eight (f : ℚ → ℚ) {n : ℕ} (hn : 8 ≤ n) :
    calibLoop f n init = calibIter f 8 :=
  calibLoop_from_iter f 8 0 rfl n hn

theorem calibrate_eq_iter_eight (f : ℚ → ℚ) : calibrate f = calibIter f 8 :=
  calibLoop_eq_iter_eight f (by omega)

/-! ### Dyadic bounds of the interval -/

theorem dyadic_two_mul (a k : ℕ) :
    ((a : ℚ)) / 2 ^ k = ((2 * a : ℕ) : ℚ) / 2 ^ (k + 1) := by
  push_cast
  rw [pow_succ]
  field_simp
  ring

theorem dyadic_add (a b k : ℕ) :
    ((a : ℚ) / 2 ^ k + (b : ℚ) / 2 ^ k) / 2 = ((a + b : ℕ) : ℚ) / 2 ^ (k + 1) := by
  push_cast
  rw [pow_succ]
  field_simp

theorem dyadic_calibIter (f : ℚ → ℚ) :
    ∀ k, ∃ a b : ℕ, a < b ∧ b ≤ 2 ^ k ∧
      (calibIter f k).left = (a : ℚ) / 2 ^ k ∧
      (calibIter f k).right = (b : ℚ) / 2 ^ k := by
  intro k
  induction k with
  | zero => exact ⟨0, 1, by omega, by omega, by simp [calibIter, init], by simp [calibIter, init]⟩
  | succ k ih =>
      obtain ⟨a, b, hab, hb, hl, hr⟩ := ih
      rw [calibIter_succ]
      rcases step_cases f (calibIter f k) with ⟨h1, h2⟩ | ⟨h1, h2⟩
      · refine ⟨2 * a, a + b, by omega, by rw [pow_succ]; omega, ?_, ?_⟩
        · rw [h1, hl, dyadic_two_mul]
        · rw [h2, hl, hr, dyadic_add]
      · refine ⟨a + b, 2 * b, by omega, by rw [pow_succ]; omega, ?_, ?_⟩
        · rw [h1, hl, hr, dyadic_add]
        · rw [h2, hr, dyadic_two_mul]

/-! ### Contents of the memo table after the first iteration -/

theorem step_init_table (f : ℚ → ℚ) :
    (step f init).table = [(0, f 0), (1, f 1)] := by
  rw [step_table]
  norm_num [memoInsert, tlookup, init]

theorem zero_one_mem_calibIter (f : ℚ → ℚ) :
    ∀ k, 1 ≤ k → (0, f 0) ∈ (calibIter f k).table ∧
      (1, f 1) ∈ (calibIter f k).table := by
  intro k
  induction k with
  | zero => omega
  | succ k ih =>
      intro _
      rw [calibIter_succ]
      by_cases hk : 1 ≤ k
      · obtain ⟨h0, h1⟩ := ih hk
        exact ⟨step_table_mono h0, step_table_mono h1⟩
      · have hk0 : k = 0 := by omega
        subst hk0
        have : calibIter f 0 = init := rfl
        rw [this, step_init_table]
        simp

/-! ### Python `max` over dictionary keys -/

theorem foldl_argmax (g : ℚ → ℚ) :
    ∀ (ks : List ℚ) (a : ℚ),
      (ks.foldl (fun acc k => if g k > g acc then k else acc) a = a ∨
        ks.foldl (fun acc k => if g k > g acc then k else acc) a ∈ ks) ∧
      g a ≤ g (ks.foldl (fun acc k => if g k > g acc then k else acc) a) ∧
      ∀ k ∈ ks, g k ≤ g (ks.foldl (fun acc k => if g k > g acc then k else acc) a) := by
  intro ks
  induction ks with
  | nil => intro a; simp
  | cons x xs ih =>
      intro a
      simp only [List.foldl_cons]
      by_cases h : g x > g a
      · rw [if_pos h]
        obtain ⟨hmem, hge, hall⟩ := ih x
        refine ⟨?_, le_of_lt (lt_of_lt_of_le h hge), ?_⟩
        · right
          rcases hmem with e | m
          · rw [e]; exact List.mem_cons_self x xs
          · exact List.mem_cons_of_mem x m
        · intro k hk
          rcases List.mem_cons.mp hk with e | m
          · rw [e]; exact hge
          · exact hall k m
      · rw [if_neg h]
        obtain ⟨hmem, hge, hall⟩ := ih a
        refine ⟨?_, hge, ?_⟩
        · rcases hmem with e | m
          · exact .inl e
          · exact .inr (List.mem_cons_of_mem x m)
        · intro k hk
          rcases List.mem_cons.mp hk with e | m
          · rw [e]; exact le_trans (le_of_not_lt h) hge
          · exact hall k m

theorem keyScore_eq {f : ℚ → ℚ} {tbl : List (ℚ × ℚ)} (hc : Consistent f tbl)
    {k : ℚ} (hk : k ∈ tbl.map Prod.fst) : keyScore tbl k = f k := by
  obtain ⟨v, hv⟩ := mem_keys_tlookup hk
  rw [keyScore, hv, Option.getD_some]
  exact tlookup_consistent hc hv

theorem bestThresh_spec {f : ℚ → ℚ} {tbl : List (ℚ × ℚ)}
    (hc : Consistent f tbl) (hne : tbl ≠ []) :
    ∃ t, bestThresh tbl = some t ∧ t ∈ tbl.map Prod.fst ∧
      ∀ p ∈ tbl, p.2 ≤ f t := by
  cases htbl : tbl with
  | nil => exact absurd htbl hne
  | cons q rest =>
      subst htbl
      obtain ⟨hmem, hge, hall⟩ :=
        foldl_argmax (keyScore (q :: rest)) (rest.map Prod.fst) q.1
      refine ⟨(rest.map Prod.fst).foldl
        (fun acc k => if keyScore (q :: rest) k > keyScore (q :: rest) acc
          then k else acc) q.1, rfl, ?_, ?_⟩
      · rcases hmem with e | m
        · rw [e]; simp
        · simp only [List.map_cons]
          exact List.mem_cons_of_mem _ m
      · intro p hp
        have hrkeys : (rest.map Prod.fst).foldl
            (fun acc k => if keyScore (q :: rest) k > keyScore (q :: rest) acc
              then k else acc) q.1 ∈ (q :: rest).map Prod.fst := by
          rcases hmem with e | m
          · rw [e]; simp
          · simp only [List.map_cons]
            exact List.mem_cons_of_mem _ m
        have hpk : p.1 ∈ (q :: rest).map Prod.fst :=
          List.mem_map_of_mem Prod.fst hp
        have hple : keyScore (q :: rest) p.1 ≤ keyScore (q :: rest)
            ((rest.map Prod.fst).foldl
              (fun acc k => if keyScore (q :: rest) k > keyScore (q :: rest) acc
                then k else acc) q.1) := by
          rcases List.mem_cons.mp hpk with e | m
          · rw [e]; exact hge
          · exact hall p.1 m
        rw [keyScore_eq hc hpk, keyScore_eq hc hrkeys] at hple
        calc p.2 = f p.1 := hc p hp
          _ ≤ _ := hple

/-! ### Hyperparameter stem selection (evaluate.py lines 38-39)

`penne.data.partitions` is an external collaborator, so the training stem
list is a parameter; the slice `hparam_stems[:len(hparam_stems)//5]` is the
embedded code. -/

/-- `hparam_stems = hparam_stems[:len(hparam_stems)//5]` — Python `//` on
nonnegative ints is `Nat` division and `l[:n]` is `List.take n l`. -/
def hparamStems (train : List String) : List String :=
  train.take (train.length / 5)

/-! ### Per-stem truncation before scoring (evaluate.py lines 150-158 and
218-226)

The annotation loader, the prediction arrays and the metric objects are
external collaborators; what is embedded is which sequences the stem loop of
`evaluate_at_threshold` (and the identical lines of `evaluate_per_stem`)
hands to the four `update` calls.  The numpy arrays have shape `[1, T]` and
are sliced along axis 1, so they are modelled by their axis-1 contents. -/

/-- The `(np_annotation, np_pitch, np_periodicity)` triple reaching the
metric `update` calls for one stem: lines 151-153 truncate the predictions
to the reference length only when the dataset is named `"PTDB"` and the
prediction is strictly longer; the reference is never altered. -/
def scoreStemArgs (name : String) (ann pitch per : List ℚ) :
    List ℚ × List ℚ × List ℚ :=
  if name = "PTDB" ∧ pitch.length > ann.length then
    (ann, pitch.take ann.length, per.take ann.length)
  else
    (ann, pitch, per)

/-! ### Throughput totals of the prediction pass (evaluate.py lines 94-118)

Inference itself (`penne.ar_loop`, `penne.predict_from_file`) is an external
collaborator; each stem's batch-mode return values `(seconds, pitch.shape[1],
infers)` are supplied by a parameter.  The embedded code is the accumulation
of `total_seconds`, `total_frames`, `total_infers`: initialised to `0`, the
`if not skip_predictions` guard, and the fact that only the non-`ar` branch
(lines 115-118) increments them. -/

/-- One stem's reported inference cost in windowed-batch mode. -/
structure StemCost where
  seconds : ℚ
  frames : ℕ
  infers : ℕ
deriving DecidableEq

/-- The three running totals. -/
structure Totals where
  seconds : ℚ
  frames : ℕ
  infers : ℕ
deriving DecidableEq

/-- Totals after the prediction pass: zero when `skip_predictions`; the
`ar` branch (lines 99-106) computes predictions without touching the totals;
the batch branch (lines 115-118) adds each stem's cost. -/
def predictPass (skip ar : Bool) (stems : List String)
    (inf : String → StemCost) : Totals :=
  if skip then ⟨0, 0, 0⟩ else
    stems.foldl
      (fun tot stem =>
        if ar then tot
        else ⟨tot.seconds + (inf stem).seconds, tot.frames + (inf stem).frames,
              tot.infers + (inf stem).infers⟩)
      ⟨0, 0, 0⟩

/-- The aggregate result record returned by `evaluate_at_threshold`
(line 166). -/
structure ResultRecord where
  precision : ℚ
  recallV : ℚ
  f1 : ℚ
  wrmse : ℚ
  rpa : ℚ
  rca : ℚ
  seconds : ℚ
  frames : ℕ
  infers : ℕ
deriving DecidableEq

/-- Line 166: the record is built from the four computed metric values and
the three captured totals. -/
def mkResultRecord (precision recallV f1v wrmse rpa rca : ℚ) (tot : Totals) :
    ResultRecord :=
  ⟨precision, recallV, f1v, wrmse, rpa, rca, tot.seconds, tot.frames, tot.infers⟩

/-! ### File-system effects of the three JSON artifacts

Python evaluates `with open(file, 'w') as file: json.dump(expr, file)` by
first opening the file for writing — which creates it, or truncates an
existing one, to zero bytes — and only then evaluating `expr`.  The
sequence of file-system events of `dataset_to_file` (lines 63-68 open the
aggregate file, then call `dataset` → `from_stems`, whose lines 190-192
write the hyperparameter table after the calibration loop has finished, and
whose lines 242-245 open the per-stem file, evaluate `evaluate_per_stem`,
write it, then run the final `evaluate_at_threshold`) is modelled as a
trace, parameterised by which computations succeed:
`calibOk` — the prediction pass and calibration loop (everything before
line 190), `perStemOk` — `evaluate_per_stem(best_thresh, test_stems)`,
`finalOk` — the final `evaluate_at_threshold(best_thresh, test_stems)`.
A failing computation raises, aborting the run at that point.  File names
are fixed representatives of the three distinct paths. -/

inductive FsEvent where
  | openTrunc : String → FsEvent
  | jsonWrite : String → FsEvent
deriving DecidableEq

/-- Event trace of `from_stems` (lines 190-192 and 242-245). -/
def fromStemsEvents (calibOk perStemOk : Bool) : List FsEvent :=
  if calibOk then
    [FsEvent.openTrunc "hparam.json", FsEvent.jsonWrite "hparam.json",
     FsEvent.openTrunc "per_stem.json"] ++
    (if perStemOk then [FsEvent.jsonWrite "per_stem.json"] else [])
  else []

/-- Event trace of `dataset_to_file` (lines 66-68): the aggregate file is
opened before `dataset(...)` is even called, and written only once
`from_stems` has returned. -/
def datasetToFileEvents (calibOk perStemOk finalOk : Bool) : List FsEvent :=
  FsEvent.openTrunc "agg.json" ::
    (fromStemsEvents calibOk perStemOk ++
      (if calibOk && perStemOk && finalOk
        then [FsEvent.jsonWrite "agg.json"] else []))

/-- A path was opened for writing (hence created or truncated to empty) but
its JSON content was never written: a partially-written artifact remains. -/
def leavesTruncated (tr : List FsEvent) (path : String) : Prop :=
  FsEvent.openTrunc path ∈ tr ∧ FsEvent.jsonWrite path ∉ tr

instance (tr : List FsEvent) (path : String) :
    Decidable (leavesTruncated tr path) := by
  unfold leavesTruncated
  infer_instance

theorem step_init_evals (f : ℚ → ℚ) :
    (step f init).evals = [0, 1] := by
  rw [step_evals]
  norm_num [memoInsert, tlookup, init]

theorem foldl_const {α β : Type} (l : List β) (a : α) :
    l.foldl (fun t _ => t) a = a := by
  induction l generalizing a with
  | nil => rfl
  | cons x xs ih => simp [List.foldl_cons, ih]

theorem predict_fold_totals (inf : String → StemCost) :
    ∀ (l : List String) (t : Totals),
      l.foldl (fun tot stem =>
        (⟨tot.seconds + (inf stem).seconds, tot.frames + (inf stem).frames,
          tot.infers + (inf stem).infers⟩ : Totals)) t =
      ⟨t.seconds + (l.map fun st => (inf st).seconds).sum,
       t.frames + (l.map fun st => (inf st).frames).sum,
       t.infers + (l.map fun st => (inf st).infers).sum⟩ := by
  intro l
  induction l with
  | nil => intro t; simp
  | cons x xs ih =>
      intro t
      rw [List.foldl_cons, ih]
      simp only [List.map_cons, List.sum_cons, Totals.mk.injEq]
      refine ⟨by ring, by omega, by omega⟩

/-! ## Claim theorems -/

/-- C1: the calibration search starts from `left = 0`, `right = 1`; each
iteration obtains (fresh or memoized) the F1 values at `left` and at
`right`, computes `center = (left + right) / 2`, sets `left = center` when
`F1(right) > F1(left)` and otherwise sets `right = center`; and the loop
body repeats exactly while `right - left > 0.005`. -/
theorem calib_loop_follows_policy (f : ℚ → ℚ) (s : CalibState)
    (hc : Consistent f s.table) :
    init.left = 0 ∧ init.right = 1 ∧
    memoF1 f s.left s = f s.left ∧
    memoF1 f s.right (memoInsert f s.left s) = f s.right ∧
    (f s.right > f s.left →
      (step f s).left = (s.left + s.right) / 2 ∧ (step f s).right = s.right) ∧
    (¬ f s.right > f s.left →
      (step f s).left = s.left ∧ (step f s).right = (s.left + s.right) / 2) ∧
    ∀ (n : ℕ) (u : CalibState), calibLoop f (n + 1) u =
      if u.right - u.left > 0.005 then calibLoop f n (step f u) else u := by
  obtain ⟨hpos, hneg⟩ := step_char hc
  exact ⟨rfl, rfl, memoF1_eq hc s.left,
    memoF1_eq (consistent_memoInsert hc s.left) s.right,
    hpos, hneg, fun n u => rfl⟩

/-- Witness for C1 at the identity oracle and the initial state: F1 at the
right bound exceeds F1 at the left bound, so `left` moves to the center. -/
theorem calib_loop_follows_policy_witness :
    (step (fun t : ℚ => t) init).left = (init.left + init.right) / 2 ∧
    (step (fun t : ℚ => t) init).right = init.right :=
  (calib_loop_follows_policy (fun t => t) init
    (by intro p hp; simp [init] at hp)).2.2.2.2.1 (by norm_num [init])

/-- C2 counterexample: with F1 identically `0` every comparison ties, yet in
the very first iteration the code leaves `left` fixed at `0` and moves
`right` down to the center `1/2` — the opposite of the claimed tie-break
(`left` moving to center while `right` stays fixed). -/
theorem calib_tie_cex :
    (fun _ : ℚ => (0 : ℚ)) init.left = (fun _ : ℚ => (0 : ℚ)) init.right ∧
    (step (fun _ => (0 : ℚ)) init).left = init.left ∧
    (step (fun _ => (0 : ℚ)) init).right = (init.left + init.right) / 2 ∧
    ¬ ((step (fun _ => (0 : ℚ)) init).left = (init.left + init.right) / 2 ∧
       (step (fun _ => (0 : ℚ)) init).right = init.right) := by
  have h : step (fun _ => (0 : ℚ)) init =
      ⟨0, 1 / 2, [(0, 0), (1, 0)], [0, 1]⟩ := by
    norm_num [step_def, memoF1, memoInsert, tlookup, init]
  rw [h]
  norm_num [init]

/-- C2 amended: when `F1(left) = F1(right)` the `>` comparison is false, so
the tie is resolved by keeping `left` fixed and moving `right` to the
center, i.e. the interval shrinks from the right. -/
theorem calib_tie_keeps_left (f : ℚ → ℚ) (s : CalibState)
    (hc : Consistent f s.table) (htie : f s.left = f s.right) :
    (step f s).left = s.left ∧ (step f s).right = (s.left + s.right) / 2 :=
  (step_char hc).2 (by rw [htie]; exact lt_irrefl _)

/-- Witness for the amended C2 at the all-zero oracle and the initial
state. -/
theorem calib_tie_keeps_left_witness :
    (step (fun _ : ℚ => (0 : ℚ)) init).left = init.left ∧
    (step (fun _ : ℚ => (0 : ℚ)) init).right = (init.left + init.right) / 2 :=
  calib_tie_keeps_left (fun _ => 0) init
    (by intro p hp; simp [init] at hp) rfl

/-- C3: after the calibration loop, `best_thresh` is a key of the memo
table whose f1 value dominates every entry ever recorded in the table —
the argmax over all recorded entries, not merely the final bounds. -/
theorem best_thresh_is_argmax (f : ℚ → ℚ) :
    ∃ t, bestThresh (calibrate f).table = some t ∧
      t ∈ (calibrate f).table.map Prod.fst ∧
      ∀ p ∈ (calibrate f).table, p.2 ≤ f t := by
  rw [calibrate_eq_iter_eight]
  exact bestThresh_spec (inv_calibIter f 8).1
    (List.ne_nil_of_mem (zero_one_mem_calibIter f 8 (by omega)).1)

/-- Witness for C3: at the all-zero oracle the selection is defined. -/
theorem best_thresh_is_argmax_witness :
    ∃ t, bestThresh (calibrate (fun _ : ℚ => (0 : ℚ))).table = some t :=
  (best_thresh_is_argmax (fun _ => 0)).elim (fun t ht => ⟨t, ht.1⟩)

/-- C4: at any point of the calibration loop, the thresholds passed to
`evaluate_at_threshold` are pairwise distinct (no threshold is ever scored
twice), they are exactly the keys of the memo table, and a repeated request
for a previously scored threshold is answered from the table (`memoF1`
returns its score) without invoking the scorer again (`memoInsert` leaves
the state unchanged). -/
theorem calib_no_reevaluation (f : ℚ → ℚ) (k : ℕ) :
    (calibIter f k).evals.Nodup ∧
    (calibIter f k).table.map Prod.fst = (calibIter f k).evals ∧
    ∀ t ∈ (calibIter f k).evals,
      memoF1 f t (calibIter f k) = f t ∧
      memoInsert f t (calibIter f k) = calibIter f k := by
  obtain ⟨hc, hk, hn⟩ := inv_calibIter f k
  refine ⟨hn, hk, ?_⟩
  intro t ht
  have htk : t ∈ (calibIter f k).table.map Prod.fst := by rw [hk]; exact ht
  obtain ⟨v, hv⟩ := mem_keys_tlookup htk
  constructor
  · rw [memoF1, hv]
    exact tlookup_consistent hc hv
  · rw [memoInsert, hv]

/-- Witness for C4 after the first iteration: threshold `0` was scored, and
a repeated request is served from the memo table. -/
theorem calib_no_reevaluation_witness :
    memoF1 (fun t : ℚ => t) 0 (calibIter (fun t : ℚ => t) 1) = 0 ∧
    memoInsert (fun t : ℚ => t) 0 (calibIter (fun t : ℚ => t) 1) =
      calibIter (fun t : ℚ => t) 1 :=
  (calib_no_reevaluation (fun t => t) 1).2.2 0
    (by rw [show calibIter (fun t : ℚ => t) 1 = step (fun t : ℚ => t) init
          from by simp [calibIter], step_init_evals]
        simp)

/-- C5: for every F1 oracle, the loop guard `right - left > 0.005` holds at
each of the first 8 states and fails at the 8th iterate, so the calibration
loop terminates after exactly `⌈log2(1/0.005)⌉ = 8` iterations: any fuel of
at least 8 yields the 8-fold iterate of the loop body. -/
theorem calib_exactly_eight_iterations (f : ℚ → ℚ) :
    (∀ k, k < 8 → (calibIter f k).right - (calibIter f k).left > 0.005) ∧
    ¬ ((calibIter f 8).right - (calibIter f 8).left > 0.005) ∧
    ∀ n, 8 ≤ n → calibLoop f n init = calibIter f 8 := by
  refine ⟨?_, ?_, fun n hn => calibLoop_eq_iter_eight f hn⟩
  · intro k hk
    rw [width_calibIter]
    exact guard_true_of_le_seven (by omega)
  · rw [width_calibIter]
    exact guard_false_at_eight

/-- Witness for C5 at the all-zero oracle: the guard holds initially and
the loop result is the 8-fold iterate. -/
theorem calib_exactly_eight_iterations_witness :
    (calibIter (fun _ : ℚ => (0 : ℚ)) 0).right -
      (calibIter (fun _ : ℚ => (0 : ℚ)) 0).left > 0.005 ∧
    calibLoop (fun _ : ℚ => (0 : ℚ)) 9 init = calibIter (fun _ : ℚ => (0 : ℚ)) 8 :=
  ⟨(calib_exactly_eight_iterations (fun _ => 0)).1 0 (by norm_num),
   (calib_exactly_eight_iterations (fun _ => 0)).2.2 9 (by norm_num)⟩

/-- C6 counterexample: for a dataset other than `"PTDB"`, a prediction
strictly longer than the reference (here length 2 versus 1) is handed to
the metric updates untruncated — the claimed unconditional truncation does
not happen. -/
theorem truncation_cex :
    ([(0 : ℚ)] : List ℚ).length < ([(3 : ℚ), 4] : List ℚ).length ∧
    (scoreStemArgs "MDB" [0] [3, 4] [5, 6]).2.1 = [3, 4] ∧
    (scoreStemArgs "MDB" [0] [3, 4] [5, 6]).2.1 ≠ ([(3 : ℚ), 4] : List ℚ).take 1 := by
  refine ⟨by norm_num, ?_, ?_⟩
  · rw [scoreStemArgs, if_neg]
    rintro ⟨h, -⟩
    exact absurd h (by decide)
  · rw [scoreStemArgs, if_neg]
    · intro h
      simp at h
    · rintro ⟨h, -⟩
      exact absurd h (by decide)

/-- C6 amended: the reference sequence is never altered; when the dataset
is `"PTDB"` and the prediction is strictly longer than the reference, both
the pitch and the periodicity sequences are truncated to the reference
length before the metric updates; in every other case (prediction not
longer, or any other dataset) no truncation is performed. -/
theorem truncation_rule (name : String) (ann pitch per : List ℚ) :
    (scoreStemArgs name ann pitch per).1 = ann ∧
    (name = "PTDB" → ann.length < pitch.length →
      (scoreStemArgs name ann pitch per).2.1 = pitch.take ann.length ∧
      (scoreStemArgs name ann pitch per).2.2 = per.take ann.length ∧
      (scoreStemArgs name ann pitch per).2.1.length = ann.length) ∧
    (pitch.length ≤ ann.length →
      (scoreStemArgs name ann pitch per).2.1 = pitch ∧
      (scoreStemArgs name ann pitch per).2.2 = per) ∧
    (name ≠ "PTDB" →
      (scoreStemArgs name ann pitch per).2.1 = pitch ∧
      (scoreStemArgs name ann pitch per).2.2 = per) := by
  by_cases h : name = "PTDB" ∧ pitch.length > ann.length
  · rw [scoreStemArgs, if_pos h]
    refine ⟨rfl, fun _ _ => ⟨rfl, rfl, ?_⟩,
      fun hle => absurd h.2 (not_lt.mpr hle), fun hne => absurd h.1 hne⟩
    rw [List.length_take]
    exact min_eq_left (le_of_lt h.2)
  · rw [scoreStemArgs, if_neg h]
    exact ⟨rfl, fun h1 h2 => absurd ⟨h1, h2⟩ h,
      fun _ => ⟨rfl, rfl⟩, fun _ => ⟨rfl, rfl⟩⟩

/-- Witness for the amended C6: on `"PTDB"` with reference length 1 and
prediction length 2, both predicted sequences are cut to length 1. -/
theorem truncation_rule_witness :
    (scoreStemArgs "PTDB" [0] [3, 4] [5, 6]).2.1 = ([(3 : ℚ), 4] : List ℚ).take 1 ∧
    (scoreStemArgs "PTDB" [0] [3, 4] [5, 6]).2.2 = ([(5 : ℚ), 6] : List ℚ).take 1 := by
  have h := (truncation_rule "PTDB" [0] [3, 4] [5, 6]).2.1 rfl (by norm_num)
  exact ⟨h.1, h.2.1⟩

/-- C7: the hyperparameter subset is the contiguous unshuffled first fifth
(floor division) of the training partition's ordered stem list: it is an
initial segment of that list and its length is `len(train) // 5`. -/
theorem hparam_first_fifth (train : List String) :
    (∃ rest, hparamStems train ++ rest = train) ∧
    (hparamStems train).length = train.length / 5 := by
  refine ⟨⟨train.drop (train.length / 5), List.take_append_drop _ _⟩, ?_⟩
  rw [hparamStems, List.length_take]
  exact min_eq_left (Nat.div_le_self _ _)

/-- C8 counterexample: in autoregressive mode the prediction pass leaves
all three totals at zero even though the stem's inference produced nonzero
seconds, frames and inference calls — the totals are not increased by the
stem's contribution. -/
theorem totals_ar_cex :
    predictPass false true ["a"] (fun _ => ⟨1, 10, 2⟩) = ⟨0, 0, 0⟩ ∧
    (⟨0, 0, 0⟩ : Totals) ≠ (⟨1, 10, 2⟩ : Totals) := by
  constructor
  · rfl
  · intro h
    have := congrArg Totals.frames h
    simp at this

/-- C8 amended: when predictions are reused (`skip_predictions`) the totals
stay zero; in autoregressive mode the per-stem loop never increments them,
so they also stay zero; in windowed-batch mode each stem adds its reported
seconds, frames and inference-call counts, and the result record of
`evaluate_at_threshold` reports exactly the accumulated totals. -/
theorem totals_batch_accumulation (stems : List String)
    (inf : String → StemCost) :
    predictPass true false stems inf = ⟨0, 0, 0⟩ ∧
    predictPass false true stems inf = ⟨0, 0, 0⟩ ∧
    (predictPass false false stems inf).seconds =
      (stems.map fun st => (inf st).seconds).sum ∧
    (predictPass false false stems inf).frames =
      (stems.map fun st => (inf st).frames).sum ∧
    (predictPass false false stems inf).infers =
      (stems.map fun st => (inf st).infers).sum ∧
    ∀ (p r f1v w rp rc : ℚ) (tot : Totals),
      (mkResultRecord p r f1v w rp rc tot).seconds = tot.seconds ∧
      (mkResultRecord p r f1v w rp rc tot).frames = tot.frames ∧
      (mkResultRecord p r f1v w rp rc tot).infers = tot.infers := by
  have har : predictPass false true stems inf = ⟨0, 0, 0⟩ := by
    rw [predictPass, if_neg (by simp)]
    have hfn : (fun (tot : Totals) (stem : String) =>
        if (true : Bool) then tot
        else ⟨tot.seconds + (inf stem).seconds, tot.frames + (inf stem).frames,
              tot.infers + (inf stem).infers⟩) =
        fun (tot : Totals) (_ : String) => tot := by
      funext tot stem
      simp
    rw [hfn]
    exact foldl_const stems (⟨0, 0, 0⟩ : Totals)
  have hbatch : predictPass false false stems inf =
      ⟨(stems.map fun st => (inf st).seconds).sum,
       (stems.map fun st => (inf st).frames).sum,
       (stems.map fun st => (inf st).infers).sum⟩ := by
    rw [predictPass, if_neg (by simp)]
    simp only [Bool.false_eq_true, if_false]
    rw [predict_fold_totals inf stems ⟨0, 0, 0⟩]
    simp
  exact ⟨rfl, har, by rw [hbatch], by rw [hbatch], by rw [hbatch],
    fun p r f1v w rp rc tot => ⟨rfl, rfl, rfl⟩⟩

/-- C9 counterexample: if the computation feeding an artifact fails, an
empty (truncated) JSON file can remain: a calibration failure leaves the
already-opened aggregate file empty, and a per-stem scoring failure leaves
the already-opened per-stem file empty. -/
theorem artifact_cex :
    leavesTruncated (datasetToFileEvents false false false) "agg.json" ∧
    leavesTruncated (datasetToFileEvents true false false) "per_stem.json" := by
  decide

/-- C9 amended: only the hyperparameter table is write-on-success (it is
computed before its file is opened, so it is never left partially written);
the aggregate file is opened before any computation and the per-stem file
is opened before `evaluate_per_stem` runs, so a failure of calibration
leaves an empty aggregate artifact, a failure of per-stem scoring leaves
empty per-stem and aggregate artifacts, and a failure of the final
aggregate scoring leaves an empty aggregate artifact; when everything
succeeds no artifact is left truncated. -/
theorem artifact_write_order :
    ∀ calibOk perStemOk finalOk : Bool,
      ¬ leavesTruncated (datasetToFileEvents calibOk perStemOk finalOk)
          "hparam.json" ∧
      (calibOk = false →
        leavesTruncated (datasetToFileEvents calibOk perStemOk finalOk)
          "agg.json") ∧
      (calibOk = true → perStemOk = false →
        leavesTruncated (datasetToFileEvents calibOk perStemOk finalOk)
          "per_stem.json" ∧
        leavesTruncated (datasetToFileEvents calibOk perStemOk finalOk)
          "agg.json") ∧
      (calibOk = true → perStemOk = true → finalOk = false →
        leavesTruncated (datasetToFileEvents calibOk perStemOk finalOk)
          "agg.json") ∧
      (calibOk = true → perStemOk = true → finalOk = true →
        ¬ leavesTruncated (datasetToFileEvents calibOk perStemOk finalOk)
            "agg.json" ∧
        ¬ leavesTruncated (datasetToFileEvents calibOk perStemOk finalOk)
            "per_stem.json") := by
  decide

/-- Witness for the amended C9: a per-stem scoring failure leaves the
per-stem artifact truncated. -/
theorem artifact_write_order_witness :
    leavesTruncated (datasetToFileEvents true false true) "per_stem.json" :=
  ((artifact_write_order true false true).2.2.1 rfl rfl).1

/-- C10: throughout the calibration loop `0 ≤ left < right ≤ 1`, both
bounds are dyadic rationals over the common denominator `2^k` after `k`
iterations (so float dictionary keys are exact), the memo table contains
the entries for thresholds `0` and `1` from the first iteration on, and
the table over which `best_thresh` is selected is nonempty. -/
theorem calib_interval_invariant (f : ℚ → ℚ) (k : ℕ) :
    0 ≤ (calibIter f k).left ∧
    (calibIter f k).left < (calibIter f k).right ∧
    (calibIter f k).right ≤ 1 ∧
    (∃ a b : ℕ, a < b ∧ b ≤ 2 ^ k ∧
      (calibIter f k).left = (a : ℚ) / 2 ^ k ∧
      (calibIter f k).right = (b : ℚ) / 2 ^ k) ∧
    (1 ≤ k → (0, f 0) ∈ (calibIter f k).table ∧
      (1, f 1) ∈ (calibIter f k).table) ∧
    (calibrate f).table ≠ [] := by
  obtain ⟨a, b, hab, hb, hl, hr⟩ := dyadic_calibIter f k
  refine ⟨?_, ?_, ?_, ⟨a, b, hab, hb, hl, hr⟩, zero_one_mem_calibIter f k, ?_⟩
  · rw [hl]
    positivity
  · rw [hl, hr]
    gcongr
  · rw [hr, div_le_one (by positivity)]
    exact_mod_cast hb
  · rw [calibrate_eq_iter_eight]
    exact List.ne_nil_of_mem (zero_one_mem_calibIter f 8 (by omega)).1

/-- Witness for C10 after the first iteration at the identity oracle:
threshold `0` is recorded in the table. -/
theorem calib_interval_invariant_witness :
    ((0 : ℚ), (0 : ℚ)) ∈ (calibIter (fun t : ℚ => t) 1).table :=
  ((calib_interval_invariant (fun t => t) 1).2.2.2.2.1 (by norm_num)).1

end Penne
